import Mathlib

/-!
Verification of the synthesis-and-calibration core of `scripts/gen-sounds.py`.

Shallow embedding conventions:
* Python float arithmetic is modelled as exact arithmetic: `ℚ` where the code
  only adds, multiplies, divides and compares (cost function, optimizer
  callback, parameter bounds), `ℝ` where transcendental functions occur
  (oscillators, envelopes, spectral analysis).
* numpy arrays are `List ℝ` or index functions `ℕ → ℝ`; `np.sum` over an
  array of known length is a `Finset.range` sum.
* `int(x)` (truncation toward zero) is `pyInt`.
* External library calls (scipy `butter`/`sosfiltfilt`/`welch`, numpy's
  seeded generator, pedalboard chains) are modelled from their documented
  interfaces; each such definition carries a doc comment saying exactly what
  was modelled.  Fallible scipy calls return `Except`.
-/

/-- Python `int()` truncation toward zero on a rational. -/
def pyInt (q : ℚ) : ℤ := if 0 ≤ q then ⌊q⌋ else ⌈q⌉

/-- `max(0, int(q))` as a natural number (used for sample counts and indices;
for a nonnegative argument this is exactly Python `int()`). -/
def pyIntNat (q : ℚ) : ℕ := (max 0 (pyInt q)).toNat

/-- The fixed sample rate `SR = 44100`. -/
def SR : ℚ := 44100

/-- `int(SR * dur)`: the length of every buffer built by `_t`, `silence`,
`pink_noise` for a given duration. -/
def nSamples (dur : ℚ) : ℕ := pyIntNat (SR * dur)

/- ── Cost function (`_range_cost`) ─────────────────────────────────── -/

/-- One iteration of the loop body of `_range_cost`: the penalty contributed
by a single feature `val` against its range `[lo, hi]`.
`scale = abs((lo + hi) / 2) + 1e-10`. -/
def costTerm (val lo hi : ℚ) : ℚ :=
  let scale := |(lo + hi) / 2| + 1/10^10
  if val < lo then ((lo - val) / scale)^2
  else if hi < val then ((val - hi) / scale)^2
  else 0

/-- `_range_cost`: the metric dict has the fixed 8 keys, so `actual` and
`ref` are indexed by `Fin 8`; the `for key, (lo, hi) in ref.items()` loop is
the sum over all 8 indices. -/
def range_cost (actual : Fin 8 → ℚ) (ref : Fin 8 → ℚ × ℚ) : ℚ :=
  ∑ i : Fin 8, costTerm (actual i) (ref i).1 (ref i).2

lemma costTerm_scale_pos (lo hi : ℚ) : 0 < |(lo + hi) / 2| + 1/10^10 := by
  have h := abs_nonneg ((lo + hi) / 2)
  positivity

lemma costTerm_nonneg (val lo hi : ℚ) : 0 ≤ costTerm val lo hi := by
  unfold costTerm
  split_ifs <;> positivity

lemma costTerm_eq_zero_iff (val lo hi : ℚ) :
    costTerm val lo hi = 0 ↔ lo ≤ val ∧ val ≤ hi := by
  unfold costTerm
  split_ifs with h1 h2
  · constructor
    · intro hz
      exfalso
      have hscale := costTerm_scale_pos lo hi
      have hnum : 0 < lo - val := by linarith
      have : 0 < ((lo - val) / (|(lo + hi) / 2| + 1/10^10))^2 :=
        pow_pos (div_pos hnum hscale) 2
      simp only [hz] at this
      exact lt_irrefl 0 this
    · intro ⟨hlo, _⟩; exact absurd h1 (not_lt.mpr hlo)
  · constructor
    · intro hz
      exfalso
      have hscale := costTerm_scale_pos lo hi
      have hnum : 0 < val - hi := by linarith
      have : 0 < ((val - hi) / (|(lo + hi) / 2| + 1/10^10))^2 :=
        pow_pos (div_pos hnum hscale) 2
      simp only [hz] at this
      exact lt_irrefl 0 this
    · intro ⟨_, hhi⟩; exact absurd h2 (not_lt.mpr hhi)
  · exact ⟨fun _ => ⟨le_of_not_lt h1, le_of_not_lt h2⟩, fun _ => rfl⟩

lemma range_cost_nonneg (actual : Fin 8 → ℚ) (ref : Fin 8 → ℚ × ℚ) :
    0 ≤ range_cost actual ref :=
  Finset.sum_nonneg fun i _ => costTerm_nonneg _ _ _

lemma range_cost_eq_zero_iff (actual : Fin 8 → ℚ) (ref : Fin 8 → ℚ × ℚ) :
    range_cost actual ref = 0 ↔
      ∀ i, (ref i).1 ≤ actual i ∧ actual i ≤ (ref i).2 := by
  unfold range_cost
  rw [Finset.sum_eq_zero_iff_of_nonneg (fun i _ => costTerm_nonneg _ _ _)]
  constructor
  · intro h i
    exact (costTerm_eq_zero_iff _ _ _).mp (h i (Finset.mem_univ i))
  · intro h i _
    exact (costTerm_eq_zero_iff _ _ _).mpr (h i)

/-- C1: for every target-range mapping with `low ≤ high` and every feature
vector, `_range_cost` is non-negative; it is zero iff every feature lies in
its inclusive range; an out-of-range feature contributes the squared relative
overshoot `((value - boundary) / scale)^2` with
`scale = |midpoint| + 1e-10`, and the total is the sum of the 8 terms. -/
theorem range_cost_spec (actual : Fin 8 → ℚ) (ref : Fin 8 → ℚ × ℚ)
    (hlh : ∀ i, (ref i).1 ≤ (ref i).2) :
    0 ≤ range_cost actual ref
    ∧ (range_cost actual ref = 0 ↔
        ∀ i, (ref i).1 ≤ actual i ∧ actual i ≤ (ref i).2)
    ∧ range_cost actual ref = ∑ i : Fin 8, costTerm (actual i) (ref i).1 (ref i).2
    ∧ (∀ i, actual i < (ref i).1 →
        costTerm (actual i) (ref i).1 (ref i).2 =
          (((ref i).1 - actual i) / (|((ref i).1 + (ref i).2) / 2| + 1/10^10))^2)
    ∧ (∀ i, (ref i).2 < actual i →
        costTerm (actual i) (ref i).1 (ref i).2 =
          ((actual i - (ref i).2) / (|((ref i).1 + (ref i).2) / 2| + 1/10^10))^2) := by
  refine ⟨range_cost_nonneg _ _, range_cost_eq_zero_iff _ _, rfl, ?_, ?_⟩
  · intro i hi
    unfold costTerm
    rw [if_pos hi]
  · intro i hi
    have hnot : ¬ actual i < (ref i).1 := not_lt.mpr (le_trans (hlh i) (le_of_lt hi))
    unfold costTerm
    rw [if_neg hnot, if_pos hi]

/-- Witness for `range_cost_spec` at a concrete in-bounds/out-of-bounds pair. -/
theorem range_cost_spec_witness :
    0 ≤ range_cost (fun _ => 2) (fun _ => (0, 1))
    ∧ (range_cost (fun _ => 2) (fun _ => (0, 1)) = 0 ↔
        ∀ i : Fin 8, ((fun _ => ((0 : ℚ), (1 : ℚ))) i).1 ≤ (fun _ => (2 : ℚ)) i
          ∧ (fun _ => (2 : ℚ)) i ≤ ((fun _ => ((0 : ℚ), (1 : ℚ))) i).2)
    ∧ range_cost (fun _ => 2) (fun _ => (0, 1)) =
        ∑ i : Fin 8, costTerm ((fun _ => (2 : ℚ)) i) (0 : ℚ) (1 : ℚ)
    ∧ (∀ i : Fin 8, (fun _ => (2 : ℚ)) i < (0 : ℚ) →
        costTerm ((fun _ => (2 : ℚ)) i) (0 : ℚ) (1 : ℚ) =
          (((0 : ℚ) - 2) / (|((0 : ℚ) + 1) / 2| + 1/10^10))^2)
    ∧ (∀ i : Fin 8, (1 : ℚ) < (fun _ => (2 : ℚ)) i →
        costTerm ((fun _ => (2 : ℚ)) i) (0 : ℚ) (1 : ℚ) =
          (((2 : ℚ) - 1) / (|((0 : ℚ) + 1) / 2| + 1/10^10))^2) :=
  range_cost_spec (fun _ => 2) (fun _ => (0, 1)) (fun _ => by norm_num)

lemma costTerm_mono_below {v w lo hi : ℚ} (hw : w ≤ v) (hv : v < lo) :
    costTerm v lo hi ≤ costTerm w lo hi := by
  have hwlo : w < lo := lt_of_le_of_lt hw hv
  unfold costTerm
  rw [if_pos hv, if_pos hwlo]
  have hscale := costTerm_scale_pos lo hi
  have h1 : (0 : ℚ) ≤ (lo - v) / (|(lo + hi) / 2| + 1/10^10) :=
    div_nonneg (by linarith) (le_of_lt hscale)
  have h2 : (lo - v) / (|(lo + hi) / 2| + 1/10^10)
      ≤ (lo - w) / (|(lo + hi) / 2| + 1/10^10) :=
    (div_le_div_iff_of_pos_right hscale).mpr (by linarith)
  exact pow_le_pow_left₀ h1 h2 2

lemma costTerm_mono_above {v w lo hi : ℚ} (hlh : lo ≤ hi) (hw : v ≤ w)
    (hv : hi < v) : costTerm v lo hi ≤ costTerm w lo hi := by
  have hwhi : hi < w := lt_of_lt_of_le hv hw
  have hvlo : ¬ v < lo := not_lt.mpr (le_of_lt (lt_of_le_of_lt hlh hv))
  have hwlo : ¬ w < lo := not_lt.mpr (le_of_lt (lt_of_le_of_lt hlh hwhi))
  unfold costTerm
  rw [if_neg hvlo, if_pos hv, if_neg hwlo, if_pos hwhi]
  have hscale := costTerm_scale_pos lo hi
  have h1 : (0 : ℚ) ≤ (v - hi) / (|(lo + hi) / 2| + 1/10^10) :=
    div_nonneg (by linarith) (le_of_lt hscale)
  have h2 : (v - hi) / (|(lo + hi) / 2| + 1/10^10)
      ≤ (w - hi) / (|(lo + hi) / 2| + 1/10^10) :=
    (div_le_div_iff_of_pos_right hscale).mpr (by linarith)
  exact pow_le_pow_left₀ h1 h2 2

lemma range_cost_congr_offdiag {v w : Fin 8 → ℚ} {r : Fin 8 → ℚ × ℚ}
    (i : Fin 8) (hagree : ∀ j, j ≠ i → w j = v j)
    (hterm : costTerm (v i) (r i).1 (r i).2 ≤ costTerm (w i) (r i).1 (r i).2) :
    range_cost v r ≤ range_cost w r := by
  unfold range_cost
  refine Finset.sum_le_sum fun j _ => ?_
  by_cases hji : j = i
  · subst hji; exact hterm
  · rw [hagree j hji]

/-- C6: with all other features in range, moving one feature out of range
takes the cost from exactly 0 to strictly positive, and for a feature held
beyond the same boundary the cost is monotone non-decreasing in the size of
the excursion (both below the low boundary and above the high boundary). -/
theorem range_cost_single_feature_monotone :
    (∀ (v w : Fin 8 → ℚ) (r : Fin 8 → ℚ × ℚ) (i : Fin 8),
      (∀ j, (r j).1 ≤ v j ∧ v j ≤ (r j).2) →
      (∀ j, j ≠ i → w j = v j) →
      (w i < (r i).1 ∨ (r i).2 < w i) →
      range_cost v r = 0 ∧ 0 < range_cost w r)
    ∧ (∀ (v w : Fin 8 → ℚ) (r : Fin 8 → ℚ × ℚ) (i : Fin 8),
      (∀ j, j ≠ i → w j = v j) → w i ≤ v i → v i < (r i).1 →
      range_cost v r ≤ range_cost w r)
    ∧ (∀ (v w : Fin 8 → ℚ) (r : Fin 8 → ℚ × ℚ) (i : Fin 8),
      (r i).1 ≤ (r i).2 →
      (∀ j, j ≠ i → w j = v j) → v i ≤ w i → (r i).2 < v i →
      range_cost v r ≤ range_cost w r) := by
  refine ⟨?_, ?_, ?_⟩
  · intro v w r i hin hagree hout
    refine ⟨(range_cost_eq_zero_iff v r).mpr fun j => hin j, ?_⟩
    have hterm : 0 < costTerm (w i) (r i).1 (r i).2 := by
      rcases lt_or_eq_of_le (costTerm_nonneg (w i) (r i).1 (r i).2) with h | h
      · exact h
      · exfalso
        have := (costTerm_eq_zero_iff (w i) (r i).1 (r i).2).mp h.symm
        rcases hout with h1 | h1
        · exact absurd this.1 (not_le.mpr h1)
        · exact absurd this.2 (not_le.mpr h1)
    have hle : costTerm (w i) (r i).1 (r i).2 ≤ range_cost w r := by
      unfold range_cost
      exact Finset.single_le_sum (fun j _ => costTerm_nonneg _ _ _)
        (Finset.mem_univ i)
    linarith
  · intro v w r i hagree hwv hv
    exact range_cost_congr_offdiag i hagree (costTerm_mono_below hwv hv)
  · intro v w r i hlh hagree hvw hv
    exact range_cost_congr_offdiag i hagree (costTerm_mono_above hlh hvw hv)

/-- Witness for `range_cost_single_feature_monotone`: instantiates all three
parts at concrete feature vectors around the range `[0, 1]`, perturbing only
coordinate 0. -/
theorem range_cost_single_feature_monotone_witness :
    (range_cost (fun _ => 1/2) (fun _ => (0, 1)) = 0
      ∧ 0 < range_cost (fun j => if j = 0 then 3 else 1/2) (fun _ => (0, 1)))
    ∧ range_cost (fun j => if j = 0 then -1 else 1/2) (fun _ => (0, 1))
        ≤ range_cost (fun j => if j = 0 then -2 else 1/2) (fun _ => (0, 1))
    ∧ range_cost (fun j => if j = 0 then 3 else 1/2) (fun _ => (0, 1))
        ≤ range_cost (fun j => if j = 0 then 4 else 1/2) (fun _ => (0, 1)) :=
  ⟨range_cost_single_feature_monotone.1 (fun _ => 1/2)
      (fun j => if j = 0 then 3 else 1/2) (fun _ => (0, 1)) 0
      (fun _ => by norm_num) (fun j hj => by simp [hj])
      (Or.inr (by norm_num)),
   range_cost_single_feature_monotone.2.1
      (fun j => if j = 0 then -1 else 1/2) (fun j => if j = 0 then -2 else 1/2)
      (fun _ => (0, 1)) 0 (fun j hj => by simp [hj])
      (by norm_num) (by norm_num),
   range_cost_single_feature_monotone.2.2
      (fun j => if j = 0 then 3 else 1/2) (fun j => if j = 0 then 4 else 1/2)
      (fun _ => (0, 1)) 0 (by norm_num)
      (fun j hj => by simp [hj]) (by norm_num) (by norm_num)⟩

/- ── Optimizer stopping callback and generation loop ───────────────── -/

/-- Mutable state threaded through `_move_cb` (`_cap_cb` is identical):
`best_cost` starts as `float("inf")` (modelled as `none`) and
`plateau_check` as the empty list. -/
structure CbState where
  best : Option ℚ
  hist : List ℚ
deriving DecidableEq

/-- The running-best update
`if cost < best_cost[0]: best_cost[0] = cost` (with `none` = infinity). -/
def updBest (b : Option ℚ) (cost : ℚ) : ℚ :=
  match b with
  | none => cost
  | some v => min v cost

/-- One invocation of the per-generation stopping callback `_move_cb`
(`xk` enters only through `cost = objective(xk)`, `elapsed` is
`time.monotonic() - t0`).  Returns the updated state and the boolean the
callback returns to `differential_evolution` (Python returns `True` or
falls through returning `None`, which is falsy). -/
def move_cb (s : CbState) (cost elapsed : ℚ) : CbState × Bool :=
  let best := updBest s.best cost
  let hist := s.hist ++ [best]
  let stop :=
    if best < 1/100 ∨ 120 < elapsed then true
    else if 20 ≤ hist.length then
      let old := hist.getD (hist.length - 20) 0
      decide (0 < old ∧ (old - best) / old < 1/100)
    else false
  (⟨some best, hist⟩, stop)

/-- The generation loop of `differential_evolution(..., maxiter=500,
callback=_move_cb)` restricted to what the claims observe: each generation
produces an objective value `obj gen` for the reported candidate and a
wall-clock reading `clock gen`; the callback is invoked after each
generation and the loop stops when it returns true or when `maxiter`
generations have run.  Returns (generations run, best cost at stop). -/
def runDEAux (obj clock : ℕ → ℚ) : ℕ → ℕ → CbState → ℕ × ℚ
  | 0, gen, s => (gen, (s.best).getD 0)
  | fuel + 1, gen, s =>
    let r := move_cb s (obj gen) (clock gen)
    if r.2 then (gen + 1, (r.1.best).getD 0)
    else runDEAux obj clock fuel (gen + 1) r.1

/-- A full optimizer run with `maxiter = 500` (the value passed by both
`_optimize_move` and `_optimize_capture`). -/
def runDE (obj clock : ℕ → ℚ) : ℕ × ℚ := runDEAux obj clock 500 0 ⟨none, []⟩

lemma getD_mem_of_lt {α : Type} [Inhabited α] (l : List α) (i : ℕ) (d : α)
    (h : i < l.length) : l.getD i d ∈ l := by
  rw [List.getD_eq_getElem l d h]
  exact List.getElem_mem h

lemma runDEAux_gens_le (obj clock : ℕ → ℚ) :
    ∀ fuel gen s, (runDEAux obj clock fuel gen s).1 ≤ gen + fuel := by
  intro fuel
  induction fuel with
  | zero => intro gen s; simp [runDEAux]
  | succ n ih =>
    intro gen s
    simp only [runDEAux]
    split
    · show gen + 1 ≤ gen + (n + 1)
      omega
    · exact le_trans (ih (gen + 1) _) (by omega)

/-- The four-way termination policy as the specification states it: stop on
success threshold `0.01`, on wall-clock budget `120` s, or — checked only
after those two — on less than `1%` relative improvement of the running best
over the last `20` recorded generations. -/
def stopPolicy (best elapsed : ℚ) (hist : List ℚ) : Prop :=
  best < 1/100 ∨ 120 < elapsed
    ∨ (¬(best < 1/100 ∨ 120 < elapsed)
        ∧ 20 ≤ hist.length
        ∧ (hist.getD (hist.length - 20) 0 - best)
            / hist.getD (hist.length - 20) 0 < 1/100)

/-- C2: the stopping callback `_move_cb` signals stop exactly when the
updated running best drops below `0.01`, or the elapsed wall-clock exceeds
`120` seconds, or — only when neither of those holds — the history window
shows less than `1%` relative improvement of the best cost over the last
`20` generations.  (The hypothesis is the loop invariant that every recorded
`plateau_check` entry is a past running best, hence at least the current
one.)  Independently of the callback, a run never exceeds the absolute
generation cap `maxiter = 500`. -/
theorem move_cb_termination_policy :
    (∀ (s : CbState) (cost elapsed : ℚ),
      (∀ x ∈ s.hist, updBest s.best cost ≤ x) →
      ((move_cb s cost elapsed).2 = true ↔
        stopPolicy (updBest s.best cost) elapsed
          (s.hist ++ [updBest s.best cost])))
    ∧ (∀ obj clock : ℕ → ℚ, (runDE obj clock).1 ≤ 500) := by
  constructor
  · intro s cost elapsed hinv
    have hstop : (move_cb s cost elapsed).2 =
        (if updBest s.best cost < 1/100 ∨ 120 < elapsed then true
         else if 20 ≤ (s.hist ++ [updBest s.best cost]).length then
           decide (0 < (s.hist ++ [updBest s.best cost]).getD
               ((s.hist ++ [updBest s.best cost]).length - 20) 0
             ∧ ((s.hist ++ [updBest s.best cost]).getD
                   ((s.hist ++ [updBest s.best cost]).length - 20) 0
                 - updBest s.best cost)
                 / (s.hist ++ [updBest s.best cost]).getD
                   ((s.hist ++ [updBest s.best cost]).length - 20) 0 < 1/100)
         else false) := rfl
    rw [hstop]
    unfold stopPolicy
    by_cases h1 : updBest s.best cost < 1/100 ∨ 120 < elapsed
    · rw [if_pos h1]
      exact iff_of_true rfl (h1.elim Or.inl fun h => Or.inr (Or.inl h))
    · rw [if_neg h1]
      by_cases h2 : 20 ≤ (s.hist ++ [updBest s.best cost]).length
      · rw [if_pos h2, decide_eq_true_eq]
        have hmem : (s.hist ++ [updBest s.best cost]).getD
            ((s.hist ++ [updBest s.best cost]).length - 20) 0
            ∈ s.hist ++ [updBest s.best cost] := by
          apply getD_mem_of_lt
          omega
        have hold_ge : updBest s.best cost
            ≤ (s.hist ++ [updBest s.best cost]).getD
                ((s.hist ++ [updBest s.best cost]).length - 20) 0 := by
          rcases List.mem_append.mp hmem with h | h
          · exact hinv _ h
          · simp only [List.mem_singleton] at h
            rw [h]
        have hold_pos : 0 < (s.hist ++ [updBest s.best cost]).getD
            ((s.hist ++ [updBest s.best cost]).length - 20) 0 := by
          have hb : (1 : ℚ)/100 ≤ updBest s.best cost :=
            not_lt.mp fun hc => h1 (Or.inl hc)
          linarith
        constructor
        · intro h
          exact Or.inr (Or.inr ⟨h1, h2, h.2⟩)
        · rintro (hc | hc | ⟨_, _, hr⟩)
          · exact absurd (Or.inl hc) h1
          · exact absurd (Or.inr hc) h1
          · exact ⟨hold_pos, hr⟩
      · rw [if_neg h2]
        constructor
        · intro h
          exact absurd h Bool.false_ne_true
        · rintro (hc | hc | ⟨_, hlen, _⟩)
          · exact absurd (Or.inl hc) h1
          · exact absurd (Or.inr hc) h1
          · exact absurd hlen h2
  · intro obj clock
    have := runDEAux_gens_le obj clock 500 0 ⟨none, []⟩
    simpa [runDE] using this

/-- Witness for `move_cb_termination_policy` at the initial callback state
with objective value 1 and elapsed time 0. -/
theorem move_cb_termination_policy_witness :
    (move_cb ⟨none, []⟩ 1 0).2 = true ↔
      stopPolicy (updBest none 1) 0 (([] : List ℚ) ++ [updBest none 1]) :=
  move_cb_termination_policy.1 ⟨none, []⟩ 1 0 (by simp)

lemma move_cb_clock_insensitive (s : CbState) (cost e1 e2 : ℚ)
    (h1 : e1 ≤ 120) (h2 : e2 ≤ 120) :
    move_cb s cost e1 = move_cb s cost e2 := by
  have hp : (updBest s.best cost < 1/100 ∨ 120 < e1) ↔
      (updBest s.best cost < 1/100 ∨ 120 < e2) := by
    constructor
    · rintro (h | h)
      · exact Or.inl h
      · exact absurd h (not_lt.mpr h1)
    · rintro (h | h)
      · exact Or.inl h
      · exact absurd h (not_lt.mpr h2)
  simp only [move_cb, hp]

lemma runDEAux_clock_insensitive (obj c1 c2 : ℕ → ℚ)
    (h1 : ∀ g, c1 g ≤ 120) (h2 : ∀ g, c2 g ≤ 120) :
    ∀ fuel gen s, runDEAux obj c1 fuel gen s = runDEAux obj c2 fuel gen s := by
  intro fuel
  induction fuel with
  | zero => intro gen s; rfl
  | succ n ih =>
    intro gen s
    simp only [runDEAux]
    rw [move_cb_clock_insensitive s (obj gen) (c1 gen) (c2 gen)
      (h1 gen) (h2 gen)]
    by_cases hb : (move_cb s (obj gen) (c2 gen)).2
    · simp [hb]
    · simp [hb, ih]

/-- C3 counterexample: two modelled optimizer runs with the identical
seed-determined objective stream (so identical target ranges, bounds and
initial guess) but different wall-clock behaviour return different results:
a run whose first generation already reads 121 s elapsed stops at
generation 1 with best cost 1, while a run on a fast machine reaches
generation 2 and best cost 1/1000.  Bit-identical output is therefore not
guaranteed by the fixed seeds alone. -/
theorem optimize_clock_dependent :
    runDE (fun g => if g = 0 then 1 else 1/1000) (fun _ => 0)
      ≠ runDE (fun g => if g = 0 then 1 else 1/1000) (fun _ => 121) := by
  have hB : runDE (fun g => if g = 0 then 1 else 1/1000) (fun _ => 121)
      = (1, 1) := by
    show runDEAux _ _ 500 0 ⟨none, []⟩ = (1, 1)
    rw [show (500 : ℕ) = 499 + 1 from rfl, runDEAux]
    norm_num [move_cb, updBest]
  have hA : runDE (fun g => if g = 0 then 1 else 1/1000) (fun _ => 0)
      = (2, 1/1000) := by
    show runDEAux _ _ 500 0 ⟨none, []⟩ = (2, 1/1000)
    rw [show (500 : ℕ) = 499 + 1 from rfl, runDEAux]
    norm_num [move_cb, updBest]
    rw [show (499 : ℕ) = 498 + 1 from rfl, runDEAux]
    norm_num [move_cb, updBest, min_def]
  rw [hA, hB]
  norm_num

/-- C3 (amended): a calibration run is a deterministic function of its
inputs and the per-generation wall-clock readings; in particular two runs
with the same objective stream whose clocks never exceed the 120 s budget
return identical (generation count, best cost) results — all remaining
randomness is fixed-seeded (search seed 960, noise seed 42), leaving the
clock as the only source of divergence. -/
theorem optimize_deterministic_given_clock (obj c1 c2 : ℕ → ℚ)
    (h1 : ∀ g, c1 g ≤ 120) (h2 : ∀ g, c2 g ≤ 120) :
    runDE obj c1 = runDE obj c2 :=
  runDEAux_clock_insensitive obj c1 c2 h1 h2 500 0 ⟨none, []⟩

/-- Witness for `optimize_deterministic_given_clock`: two different
in-budget clock streams give the same result. -/
theorem optimize_deterministic_given_clock_witness :
    runDE (fun _ => 1/2) (fun _ => 1) = runDE (fun _ => 1/2) (fun _ => 2) :=
  optimize_deterministic_given_clock (fun _ => 1/2) (fun _ => 1) (fun _ => 2)
    (fun _ => by norm_num) (fun _ => by norm_num)

/- ── Waveform primitives (real-valued samples) ─────────────────────── -/

noncomputable section

/-- The time grid `_t(dur) = np.linspace(0, dur, int(SR*dur),
endpoint=False)`: sample `i` of `n = int(SR*dur)` is `i * dur / n`. -/
def tAt (dur : ℚ) (i : ℕ) : ℚ := i * dur / nSamples dur

/-- Sample `i` of `sine(freq, dur) = np.sin(2*np.pi*freq*_t(dur))`. -/
def sineAt (freq dur : ℚ) (i : ℕ) : ℝ :=
  Real.sin (2 * Real.pi * (freq : ℝ) * ((tAt dur i : ℚ) : ℝ))

/-- Modelled from the spec: `np.random.default_rng(seed).standard_normal`
is an external numpy generator; the spec requires only that it is a
reproducible deterministic function of the seed and the draw index.
Modelled as a concrete deterministic pseudo-random rational. -/
def standard_normal (seed i : ℕ) : ℚ :=
  ((((seed + 1) * 2654435761 + i * 40503) % 65536 : ℕ) : ℚ) / 65536 - 1/2

/-- Draw `i` of the fresh seed-42 generator created inside `pink_noise`. -/
def whiteAt (i : ℕ) : ℝ := ((standard_normal 42 i : ℚ) : ℝ)

/-- Real part of `np.fft.rfft(x)[k]` for a length-`n` real input. -/
def rfftRe (x : ℕ → ℝ) (n k : ℕ) : ℝ :=
  ∑ m ∈ Finset.range n, x m * Real.cos (2 * Real.pi * k * m / n)

/-- Imaginary part of `np.fft.rfft(x)[k]` for a length-`n` real input. -/
def rfftIm (x : ℕ → ℝ) (n k : ℕ) : ℝ :=
  -(∑ m ∈ Finset.range n, x m * Real.sin (2 * Real.pi * k * m / n))

/-- `np.fft.rfftfreq(n, d=1/SR)` with the subsequent `freqs[0] = 1.0`
mutation from `pink_noise` (the DC bin is excluded from the `1/sqrt(f)`
weighting). -/
def pinkFreq (n k : ℕ) : ℚ := if k = 0 then 1 else k * SR / n

/-- Real part of `spectrum[k] /= np.sqrt(freqs[k])` applied to the white
spectrum. -/
def pinkSpecRe (n k : ℕ) : ℝ := rfftRe whiteAt n k / Real.sqrt (pinkFreq n k)

/-- Imaginary part of the weighted spectrum. -/
def pinkSpecIm (n k : ℕ) : ℝ := rfftIm whiteAt n k / Real.sqrt (pinkFreq n k)

/-- Real part of the Hermitian extension of the half spectrum to `n` bins. -/
def pinkExtRe (n k : ℕ) : ℝ :=
  if k ≤ n / 2 then pinkSpecRe n k else pinkSpecRe n (n - k)

/-- Imaginary part of the Hermitian extension (conjugated upper half). -/
def pinkExtIm (n k : ℕ) : ℝ :=
  if k ≤ n / 2 then pinkSpecIm n k else -(pinkSpecIm n (n - k))

/-- Sample `m` of `np.fft.irfft(spectrum, n=n)`: the real inverse DFT of
the Hermitian extension. -/
def pinkRawAt (n m : ℕ) : ℝ :=
  (∑ k ∈ Finset.range n,
    (pinkExtRe n k * Real.cos (2 * Real.pi * k * m / n)
      - pinkExtIm n k * Real.sin (2 * Real.pi * k * m / n))) / n

/-- `np.max(np.abs(l))` for a list of samples (for a nonempty list this
fold from 0 equals the numpy maximum, every entry of `np.abs` being
nonnegative; numpy raises on an empty array). -/
def maxAbs (l : List ℝ) : ℝ := l.foldl (fun a x => max a |x|) 0

/-- `pink_noise(dur)`: seeded white noise flattened by `1/sqrt(f)` in the
frequency domain, transformed back, and peak-normalized when the peak is
positive. -/
def pinkList (dur : ℚ) : List ℝ :=
  let n := nSamples dur
  let pink := (List.range n).map (fun m => pinkRawAt n m)
  let peak := maxAbs pink
  if 0 < peak then pink.map (fun x => x / peak) else pink

/-- The ambient program RNG `_rng = np.random.default_rng(960)` modelled as
an abstract stream position; functions that draw from it advance the
position. -/
abbrev RngState : Type := ℕ

/-- `pink_noise` with the ambient RNG state made explicit: the body
reseeds a fresh generator with the literal 42 on every call
(`np.random.default_rng(42)`) and never touches the ambient `_rng`, so the
ambient state passes through unchanged and the output depends only on the
duration. -/
def pink_noise (rng : RngState) (dur : ℚ) : List ℝ × RngState :=
  (pinkList dur, rng)

/-- Modelled from the spec: `_between(a, b) = _rng.uniform(min, max)` draws
uniformly between the two values from the ambient seeded `_rng` (numpy
external); modelled as a deterministic function of the stream position that
advances the state by one draw. -/
def between (rng : RngState) (a b : ℚ) : ℚ × RngState :=
  (min a b + (max a b - min a b) * (standard_normal 960 rng + 1/2), rng + 1)

/-- `LPF_CUTOFF = _between(6000, 8000)`: the first draw from the ambient
`_rng` at module load (stream position 0). -/
def LPF_CUTOFF : ℚ := (between (0 : ℕ) 6000 8000).1

/-- The error raised by scipy `butter` when a critical frequency is not
strictly inside `(0, fs/2)` (scipy: digital filter critical frequencies
must satisfy `0 < Wn < 1` after normalization by the Nyquist rate). -/
inductive FilterError where
  | invalidCritFreq
deriving DecidableEq

/-- Modelled from the spec: `sosfiltfilt(butter(...), samples)` is an
external scipy zero-phase filter.  The spec interface promises a
zero-phase, length-preserving linear filter; no verified property depends
on the frequency response, so the kernel is modelled as a normalized
3-point zero-phase average (length-preserving and peak-non-amplifying). -/
def sosfiltfiltK (xs : List ℝ) : List ℝ :=
  (List.range xs.length).map (fun i =>
    (xs.getD (i - 1) 0 + xs.getD i 0 + xs.getD (i + 1) 0) / 3)

/-- `bpf(samples, lo, hi, order=2)`: `butter(2, [lo, hi], btype="band",
fs=SR)` validates `0 < lo < SR/2` and `0 < hi < SR/2`, raising `ValueError`
otherwise (modelled as `Except.error`); on success the zero-phase filter is
applied.  No clamping happens here. -/
def bpf (samples : List ℝ) (lo hi : ℚ) : Except FilterError (List ℝ) :=
  if 0 < lo ∧ lo < SR / 2 ∧ 0 < hi ∧ hi < SR / 2 then
    Except.ok (sosfiltfiltK samples)
  else Except.error FilterError.invalidCritFreq

/-- `lpf(samples, cutoff)`: `butter(2, cutoff, btype="low", fs=SR)`
validates `0 < cutoff < SR/2`, raising `ValueError` otherwise.  No
clamping happens here. -/
def lpf (samples : List ℝ) (cutoff : ℚ) : Except FilterError (List ℝ) :=
  if 0 < cutoff ∧ cutoff < SR / 2 then Except.ok (sosfiltfiltK samples)
  else Except.error FilterError.invalidCritFreq

/-- `_IMPACT_ATTACK = 0.0005` (0.5 ms raised-cosine attack). -/
def IMPACT_ATTACK : ℚ := 1/2000

/-- Sample `i` of `impact_env(dur, onset, decay_tau, decay_beta)`: the
Weibull survival envelope `exp(-((t-onset)/tau)**beta)` on the clamped
relative time `t_rel = max(t - onset, 0)`, zeroed before
`onset_idx = max(0, int(onset*SR))`, with a raised-cosine attack of
`attack_n = max(1, int(SR*0.0005))` samples starting at `onset_idx` and
clipped at the buffer end. -/
def impact_env_at (dur onset tau beta : ℚ) (i : ℕ) : ℝ :=
  let n := nSamples dur
  let onsetIdx := (max 0 (pyInt (onset * SR))).toNat
  let tRel : ℚ := max (tAt dur i - onset) 0
  let base : ℝ := Real.exp (-(((tRel / tau : ℚ) : ℝ) ^ ((beta : ℚ) : ℝ)))
  if i < onsetIdx then 0
  else
    let attackN := max 1 (pyInt (SR * IMPACT_ATTACK)).toNat
    let endIdx := min (onsetIdx + attackN) n
    if i < endIdx then
      (1/2 * (1 - Real.cos (Real.pi * ((i : ℝ) - (onsetIdx : ℝ))
        / ((endIdx - onsetIdx : ℕ) : ℝ)))) * base
    else base

/-- `WoodParams` with the source defaults. -/
structure WoodParams where
  body_freq : ℚ
  dur : ℚ
  noise_level : ℚ := 1/2
  brightness : ℚ := 2500
  mode_spread : ℚ := 1/2
  onset : ℚ := 1/20
  decay_tau : ℚ := 1/200
  decay_beta : ℚ := 1/2

/-- The `zip(mode_ratios, mode_amps)` table of `wood_hit`:
`mode_ratios = [1.0, 2.76, 5.40, 8.93]` and
`mode_amps = [1.0, 0.35 + ms*0.35, 0.15 + ms*0.25, 0.06 + ms*0.14]`. -/
def mode_table (mode_spread : ℚ) : List (ℚ × ℚ) :=
  [(1, 1),
   (69/25, 7/20 + mode_spread * (7/20)),
   (27/5, 3/20 + mode_spread * (1/4)),
   (893/100, 3/50 + mode_spread * (7/50))]

/-- Sample `i` of the modal accumulation loop of `wood_hit` over a mode
table: a mode with `freq_k = body_freq * ratio > SR / 2` is skipped
(`continue`), every other mode adds `amp * sine(freq_k, dur) * main_env`;
the accumulated sample is the sum of the kept contributions. -/
def modal_at (p : WoodParams) (modes : List (ℚ × ℚ)) (i : ℕ) : ℝ :=
  ((modes.filter (fun ra => decide (p.body_freq * ra.1 ≤ SR / 2))).map
    (fun ra => ((ra.2 : ℚ) : ℝ) * sineAt (p.body_freq * ra.1) p.dur i
      * impact_env_at p.dur p.onset p.decay_tau p.decay_beta i)).sum

/-- `wood_hit(p)`: modal sines × Weibull envelope plus band-pass filtered
pink noise scaled by `noise_level`.  The noise band edges are
`noise_lo = max(100, body_freq * 0.5)` and `min(brightness, SR/2 - 1)`;
a scipy `ValueError` from `butter` propagates as `Except.error`. -/
def wood_hit (p : WoodParams) : Except FilterError (List ℝ) :=
  let n := nSamples p.dur
  let envAt := impact_env_at p.dur p.onset p.decay_tau p.decay_beta
  let raw := (List.range n).map
    (fun i => (pinkList p.dur).getD i 0 * envAt i)
  let noise_lo := max 100 (p.body_freq / 2)
  (bpf raw noise_lo (min p.brightness (SR / 2 - 1))).map
    (fun filtered =>
      (List.range n).map
        (fun i => modal_at p (mode_table p.mode_spread) i
          + ((p.noise_level : ℚ) : ℝ) * filtered.getD i 0))

/- ── Output processing (`fadeout`, `_process`) ─────────────────────── -/

/-- `_REVERB_TAIL_PAD = 0.2` seconds. -/
def REVERB_TAIL_PAD : ℚ := 1/5

/-- `_PRE_FX_HEADROOM = 0.75`. -/
def PRE_FX_HEADROOM : ℚ := 3/4

/-- `_SILENCE_FLOOR = 0.001`. -/
def SILENCE_FLOOR : ℚ := 1/1000

/-- `_POST_TRIM_PAD = 0.01` seconds. -/
def POST_TRIM_PAD : ℚ := 1/100

/-- `fadeout(samples, dur=0.008)`: raised-cosine taper
`0.5 * (1 + cos(pi * k / n))` over the last `n = min(int(SR*dur), len)`
samples (`k` counting from the start of the tail window). -/
def fadeout (samples : List ℝ) : List ℝ :=
  let n := min (pyIntNat (SR * (1/125))) samples.length
  (List.range samples.length).map (fun i =>
    if samples.length - n ≤ i then
      (1/2 * (1 + Real.cos (Real.pi * ((i : ℝ) - ((samples.length - n : ℕ) : ℝ))
        / (n : ℝ)))) * samples.getD i 0
    else samples.getD i 0)

/-- The `while last_loud > 0 and abs(samples[last_loud]) < _SILENCE_FLOOR:
last_loud -= 1` scan of `_process`, run from index `i`. -/
def lastLoudAux (s : List ℝ) : ℕ → ℕ
  | 0 => 0
  | i + 1 =>
    if |s.getD (i + 1) 0| < ((SILENCE_FLOOR : ℚ) : ℝ) then lastLoudAux s i
    else i + 1

/-- The index of the last sample at or above the silence floor (0 if the
scan reaches the beginning); starts at `len(samples) - 1`. -/
def lastLoud (s : List ℝ) : ℕ := lastLoudAux s (s.length - 1)

/-- The tail of `_process` shared by both branches: peak pre-normalization
to `_PRE_FX_HEADROOM` when the peak is positive, the effects chain `fx`
(an external pedalboard chain, modelled as an arbitrary function on sample
lists; the float32 round-trip around it is dropped by the exact-arithmetic
embedding), trailing-silence trim to
`min(last_loud + int(SR*_POST_TRIM_PAD), len)`, division by the peak when
it exceeds 1, and a final fadeout. -/
def processTail (fx : List ℝ → List ℝ) (s2 : List ℝ) : List ℝ :=
  let peak := maxAbs s2
  let s3 := if 0 < peak
    then s2.map (fun x => x / peak * ((PRE_FX_HEADROOM : ℚ) : ℝ)) else s2
  let s4 := fx s3
  let s5 := s4.take (min (lastLoud s4 + pyIntNat (SR * POST_TRIM_PAD))
    s4.length)
  let peak2 := maxAbs s5
  let s6 := if 1 < peak2 then s5.map (fun x => x / peak2) else s5
  fadeout s6

/-- `_process(samples, chain)`: fadeout, then for tonal sounds
(`chain=None`) the global `lpf` at `LPF_CUTOFF` plus an appended
`_REVERB_TAIL_PAD` of zeros before the `MASTER` chain, then `processTail`
with the given chain (or `MASTER`).  `master` stands for the external
pedalboard `MASTER` chain. -/
def process (master : List ℝ → List ℝ) (samples : List ℝ)
    (chain : Option (List ℝ → List ℝ)) : Except FilterError (List ℝ) :=
  let s1 := fadeout samples
  match chain with
  | none =>
    (lpf s1 LPF_CUTOFF).map (fun filtered =>
      processTail master
        (filtered ++ List.replicate (pyIntNat (SR * REVERB_TAIL_PAD)) 0))
  | some fx => Except.ok (processTail fx s1)

/- ── Feature extraction (`_quick_analyze`) ─────────────────────────── -/

/-- Modelled from the spec: `scipy.signal.welch(samples, fs=SR,
nperseg=min(2048, len))` is the external PSD estimator (windowed,
overlapped segments; a fixed analysis window no larger than the signal).
Modelled with scipy's documented defaults: Hann window (all-ones for
window length at most 1), 50% overlap, per-segment constant detrend,
one-sided density scaling with doubling of the interior bins.  Bin `k` of
the returned PSD for `k ≤ nperseg/2`. -/
def welchPSDAt (xs : List ℝ) (k : ℕ) : ℝ :=
  let n := xs.length
  let np := min 2048 n
  let step := np - np / 2
  let nsegs := (n - np) / step + 1
  let w : ℕ → ℝ := fun m =>
    if np ≤ 1 then 1 else 1/2 * (1 - Real.cos (2 * Real.pi * m / np))
  let wss : ℝ := ∑ m ∈ Finset.range np, (w m)^2
  let x : ℕ → ℝ := fun i => xs.getD i 0
  let segSpec : ℕ → ℝ := fun s =>
    let mean := (∑ m ∈ Finset.range np, x (s * step + m)) / np
    (∑ m ∈ Finset.range np,
        w m * (x (s * step + m) - mean) * Real.cos (2 * Real.pi * k * m / np))^2
    + (∑ m ∈ Finset.range np,
        w m * (x (s * step + m) - mean) * Real.sin (2 * Real.pi * k * m / np))^2
  ((∑ s ∈ Finset.range nsegs, segSpec s) / nsegs)
    * (1 / (((SR : ℚ) : ℝ) * wss))
    * (if k = 0 ∨ (np % 2 = 0 ∧ k = np / 2) then 1 else 2)

/-- The 8 statistical moments returned by `_quick_analyze` (the keys of its
result dict). -/
structure FeatureMetrics where
  f_centroid : ℝ
  f_spread : ℝ
  f_skewness : ℝ
  f_kurtosis : ℝ
  t_centroid : ℝ
  t_spread : ℝ
  t_skewness : ℝ
  t_kurtosis : ℝ

/-- `_quick_analyze(samples)`: 4 power-weighted moments on the
`log2`-frequency axis of the Welch PSD with the DC bin dropped
(`freqs[1:]`, `psd[1:]`, frequencies `k*SR/nperseg`), and 4
energy-weighted moments of `samples**2` over time in milliseconds; every
denominator is guarded by `eps = 1e-30`. -/
def quick_analyze (samples : List ℝ) : FeatureMetrics :=
  let eps : ℝ := 1e-30
  let n := samples.length
  let np := min 2048 n
  let psd : ℕ → ℝ := fun j => welchPSDAt samples j
  let freq : ℕ → ℝ := fun j => ((j : ℝ) * ((SR : ℚ) : ℝ)) / np
  let nb := np / 2
  let total := (∑ j ∈ Finset.range nb, psd (j + 1)) + eps
  let logf : ℕ → ℝ := fun j => Real.logb 2 (freq j)
  let fCentLog := (∑ j ∈ Finset.range nb, logf (j + 1) * psd (j + 1)) / total
  let fdev : ℕ → ℝ := fun j => logf j - fCentLog
  let fSpread :=
    Real.sqrt ((∑ j ∈ Finset.range nb, (fdev (j + 1))^2 * psd (j + 1)) / total)
  let energy : ℕ → ℝ := fun i => (samples.getD i 0)^2
  let tms : ℕ → ℝ := fun i => (i : ℝ) / ((SR : ℚ) : ℝ) * 1000
  let eTotal := (∑ i ∈ Finset.range n, energy i) + eps
  let tCent := (∑ i ∈ Finset.range n, tms i * energy i) / eTotal
  let tdev : ℕ → ℝ := fun i => tms i - tCent
  let tSpread :=
    Real.sqrt ((∑ i ∈ Finset.range n, (tdev i)^2 * energy i) / eTotal)
  { f_centroid := (2 : ℝ) ^ fCentLog
    f_spread := fSpread
    f_skewness :=
      (∑ j ∈ Finset.range nb, (fdev (j + 1))^3 * psd (j + 1))
        / (total * fSpread^3 + eps)
    f_kurtosis :=
      (∑ j ∈ Finset.range nb, (fdev (j + 1))^4 * psd (j + 1))
        / (total * fSpread^4 + eps) - 3
    t_centroid := tCent
    t_spread := tSpread
    t_skewness :=
      (∑ i ∈ Finset.range n, (tdev i)^3 * energy i) / (eTotal * tSpread^3 + eps)
    t_kurtosis :=
      (∑ i ∈ Finset.range n, (tdev i)^4 * energy i)
        / (eTotal * tSpread^4 + eps) - 3 }

/- ── Optimizer bounds and parameter unpacking ──────────────────────── -/

/-- `_SYNTH_BOUNDS`: the 7 shared synth bounds
(body_freq, noise_level, brightness, mode_spread, onset, decay_tau,
decay_beta). -/
def SYNTH_BOUNDS : List (ℚ × ℚ) :=
  [(200, 1500), (1/10, 19/20), (800, 10000), (1/20, 99/100),
   (1/100, 1/10), (1/2000, 1/50), (1/5, 4/5)]

/-- `_make_wood(x, dur)`: unpack the first 7 optimizer coordinates into
`WoodParams` in the order `bf, nl, br, ms, onset, tau, beta`. -/
def make_wood (x : List ℚ) (dur : ℚ) : WoodParams :=
  { body_freq := x.getD 0 0
    dur := dur
    noise_level := x.getD 1 0
    brightness := x.getD 2 0
    mode_spread := x.getD 3 0
    onset := x.getD 4 0
    decay_tau := x.getD 5 0
    decay_beta := x.getD 6 0 }

/-- Membership of an optimizer vector in `_SYNTH_BOUNDS` (differential
evolution never evaluates the objective outside the bounds). -/
def synthInBounds (x : List ℚ) : Prop :=
  ∀ i, i < 7 → (SYNTH_BOUNDS.getD i (0, 0)).1 ≤ x.getD i 0
    ∧ x.getD i 0 ≤ (SYNTH_BOUNDS.getD i (0, 0)).2

/- ── C9: pink-noise reproducibility ────────────────────────────────── -/

/-- C9: `pink_noise` is reproducible: its body reseeds a fresh
`default_rng(42)` on every call, so its output is independent of the
ambient RNG state, the ambient state passes through untouched, and any two
calls with the same duration produce the identical sample sequence
(`pinkList dur`) — making every objective evaluation a deterministic
function of the parameter vector. -/
theorem pink_noise_reproducible :
    ∀ (r1 r2 : RngState) (dur : ℚ),
      (pink_noise r1 dur).1 = (pink_noise r2 dur).1
      ∧ (pink_noise r1 dur).2 = r1
      ∧ (pink_noise r1 dur).1 = pinkList dur :=
  fun _ _ _ => ⟨rfl, rfl, rfl⟩

/- ── C8: Nyquist handling of the filter primitives ─────────────────── -/

/-- C8 counterexample: the primitives themselves do not clamp.  A request
at the Nyquist frequency `SR/2 = 22050` makes `butter` raise (modelled
`Except.error`) in both `lpf` and `bpf` — the call neither silently passes
the signal through nor produces a program-defined `InvalidParameter`
outcome; the `ValueError` propagates out of the primitive. -/
theorem lpf_bpf_nyquist_error :
    lpf [(1 : ℝ)] 22050 = Except.error FilterError.invalidCritFreq
    ∧ bpf [(1 : ℝ)] 100 22050 = Except.error FilterError.invalidCritFreq := by
  constructor
  · unfold lpf
    rw [if_neg]
    norm_num [SR]
  · unfold bpf
    rw [if_neg]
    norm_num [SR]

lemma synthInBounds_fields {x : List ℚ} (hx : synthInBounds x) :
    (200 ≤ x.getD 0 0 ∧ x.getD 0 0 ≤ 1500)
    ∧ (1/10 ≤ x.getD 1 0 ∧ x.getD 1 0 ≤ 19/20)
    ∧ (800 ≤ x.getD 2 0 ∧ x.getD 2 0 ≤ 10000)
    ∧ (1/20 ≤ x.getD 3 0 ∧ x.getD 3 0 ≤ 99/100)
    ∧ (1/100 ≤ x.getD 4 0 ∧ x.getD 4 0 ≤ 1/10)
    ∧ (1/2000 ≤ x.getD 5 0 ∧ x.getD 5 0 ≤ 1/50)
    ∧ (1/5 ≤ x.getD 6 0 ∧ x.getD 6 0 ≤ 4/5) := by
  have h0 := hx 0 (by norm_num)
  have h1 := hx 1 (by norm_num)
  have h2 := hx 2 (by norm_num)
  have h3 := hx 3 (by norm_num)
  have h4 := hx 4 (by norm_num)
  have h5 := hx 5 (by norm_num)
  have h6 := hx 6 (by norm_num)
  simp only [SYNTH_BOUNDS, List.getD_cons_zero, List.getD_cons_succ]
    at h0 h1 h2 h3 h4 h5 h6
  exact ⟨h0, h1, h2, h3, h4, h5, h6⟩

lemma wood_band_valid {x : List ℚ} (dur : ℚ) (hx : synthInBounds x) :
    0 < max 100 ((make_wood x dur).body_freq / 2)
    ∧ max 100 ((make_wood x dur).body_freq / 2) < SR / 2
    ∧ 0 < min (make_wood x dur).brightness (SR / 2 - 1)
    ∧ min (make_wood x dur).brightness (SR / 2 - 1) < SR / 2 := by
  obtain ⟨⟨hbf1, hbf2⟩, _, ⟨hbr1, hbr2⟩, _⟩ := synthInBounds_fields hx
  simp only [make_wood]
  refine ⟨lt_max_of_lt_left (by norm_num), ?_, ?_, ?_⟩
  · exact max_lt (by norm_num [SR]) (by rw [SR]; linarith)
  · exact lt_min (by linarith) (by norm_num [SR])
  · exact lt_of_le_of_lt (min_le_right _ _) (by norm_num [SR])

/-- C8 (amended): `lpf`/`bpf` do not clamp — an at-or-above-Nyquist cutoff
raises inside scipy `butter` (see `lpf_bpf_nyquist_error`).  The Nyquist
clamping lives at the call sites instead: for every parameter vector inside
`_SYNTH_BOUNDS`, the noise band edges computed by `wood_hit`
(`max(100, body_freq*0.5)` and `min(brightness, SR/2 - 1)`) are strictly
inside `(0, SR/2)`, so the `bpf` call inside `wood_hit` always succeeds;
and the module-level `LPF_CUTOFF` lies in `[6000, 8000]`, so the default
`lpf` call always succeeds. -/
theorem filters_clamped_at_call_sites (x : List ℚ) (dur : ℚ)
    (hx : synthInBounds x) :
    (0 < max 100 ((make_wood x dur).body_freq / 2)
      ∧ max 100 ((make_wood x dur).body_freq / 2) < SR / 2
      ∧ 0 < min (make_wood x dur).brightness (SR / 2 - 1)
      ∧ min (make_wood x dur).brightness (SR / 2 - 1) < SR / 2)
    ∧ (∀ samples, bpf samples (max 100 ((make_wood x dur).body_freq / 2))
        (min (make_wood x dur).brightness (SR / 2 - 1))
        = Except.ok (sosfiltfiltK samples))
    ∧ 6000 ≤ LPF_CUTOFF ∧ LPF_CUTOFF ≤ 8000
    ∧ (∀ samples, lpf samples LPF_CUTOFF = Except.ok (sosfiltfiltK samples)) := by
  obtain ⟨hv1, hv2, hv3, hv4⟩ := wood_band_valid dur hx
  have hcut : LPF_CUTOFF = 6000 + 2000 * (53617 / 65536) := by
    norm_num [LPF_CUTOFF, between, standard_normal]
  refine ⟨⟨hv1, hv2, hv3, hv4⟩, ?_, ?_, ?_, ?_⟩
  · intro samples
    unfold bpf
    rw [if_pos ⟨hv1, hv2, hv3, hv4⟩]
  · rw [hcut]; norm_num
  · rw [hcut]; norm_num
  · intro samples
    unfold lpf
    rw [if_pos ⟨by rw [hcut]; norm_num, by rw [hcut]; norm_num [SR]⟩]

/-- Witness for `filters_clamped_at_call_sites` at the move optimizer's
initial guess `_MOVE_X0[:7]`. -/
theorem filters_clamped_at_call_sites_witness :
    (0 < max 100 ((make_wood [690, 1/5, 1500, 1/5, 11/200, 1/500, 2/5]
        (1/4)).body_freq / 2)
      ∧ max 100 ((make_wood [690, 1/5, 1500, 1/5, 11/200, 1/500, 2/5]
          (1/4)).body_freq / 2) < SR / 2
      ∧ 0 < min ((make_wood [690, 1/5, 1500, 1/5, 11/200, 1/500, 2/5]
          (1/4)).brightness) (SR / 2 - 1)
      ∧ min ((make_wood [690, 1/5, 1500, 1/5, 11/200, 1/500, 2/5]
          (1/4)).brightness) (SR / 2 - 1) < SR / 2)
    ∧ (∀ samples, bpf samples
        (max 100 ((make_wood [690, 1/5, 1500, 1/5, 11/200, 1/500, 2/5]
          (1/4)).body_freq / 2))
        (min ((make_wood [690, 1/5, 1500, 1/5, 11/200, 1/500, 2/5]
          (1/4)).brightness) (SR / 2 - 1))
        = Except.ok (sosfiltfiltK samples))
    ∧ 6000 ≤ LPF_CUTOFF ∧ LPF_CUTOFF ≤ 8000
    ∧ (∀ samples, lpf samples LPF_CUTOFF = Except.ok (sosfiltfiltK samples)) :=
  filters_clamped_at_call_sites [690, 1/5, 1500, 1/5, 11/200, 1/500, 2/5]
    (1/4) (by
      intro i hi
      interval_cases i <;> norm_num [SYNTH_BOUNDS])

/- ── C4: Nyquist mode dropping in `wood_hit` ───────────────────────── -/

lemma bpf_invalid (samples : List ℝ) (lo hi : ℚ)
    (h : ¬(0 < lo ∧ lo < SR / 2 ∧ 0 < hi ∧ hi < SR / 2)) :
    bpf samples lo hi = Except.error FilterError.invalidCritFreq := by
  unfold bpf
  rw [if_neg h]

lemma wood_hit_eq_ok (p : WoodParams)
    (hval : 0 < max 100 (p.body_freq / 2)
      ∧ max 100 (p.body_freq / 2) < SR / 2
      ∧ 0 < min p.brightness (SR / 2 - 1)
      ∧ min p.brightness (SR / 2 - 1) < SR / 2) :
    wood_hit p = Except.ok ((List.range (nSamples p.dur)).map
      (fun i => modal_at p (mode_table p.mode_spread) i
        + ((p.noise_level : ℚ) : ℝ)
          * (sosfiltfiltK ((List.range (nSamples p.dur)).map
              (fun i => (pinkList p.dur).getD i 0
                * impact_env_at p.dur p.onset p.decay_tau p.decay_beta i))).getD
              i 0)) := by
  simp only [wood_hit, bpf]
  rw [if_pos hval]
  rfl

/-- C4 counterexample: the claim quantifies over every `WoodParams`, but at
`body_freq = 50000` (duration 0.1 s, remaining fields at their defaults)
`wood_hit` raises instead of returning a waveform: all four modal partials
are above Nyquist and are dropped, yet the noise band lower edge
`max(100, 50000*0.5) = 25000` exceeds `SR/2`, so scipy `butter` raises
`ValueError` — an error is raised and no waveform of length `int(SR*dur)`
is produced. -/
theorem wood_hit_high_fundamental_error :
    wood_hit { body_freq := 50000, dur := 1/10 }
      = Except.error FilterError.invalidCritFreq := by
  show (bpf _ (max 100 ((50000 : ℚ) / 2)) (min (2500 : ℚ) (SR / 2 - 1))).map _
      = _
  rw [bpf_invalid _ _ _ (by
    rw [SR]
    intro ⟨_, h2, _, _⟩
    rw [max_eq_right (by norm_num : (100 : ℚ) ≤ 50000 / 2)] at h2
    norm_num at h2)]
  rfl

lemma modal_at_drop (p : WoodParams) (modes : List (ℚ × ℚ)) (r a : ℚ)
    (h : SR / 2 < p.body_freq * r) (i : ℕ) :
    modal_at p ((r, a) :: modes) i = modal_at p modes i := by
  simp only [modal_at, List.filter_cons, decide_eq_true_eq]
  rw [if_neg (by simpa using not_le.mpr h)]

lemma modal_at_keep (p : WoodParams) (modes : List (ℚ × ℚ)) (r a : ℚ)
    (h : p.body_freq * r ≤ SR / 2) (i : ℕ) :
    modal_at p ((r, a) :: modes) i
      = ((a : ℚ) : ℝ) * sineAt (p.body_freq * r) p.dur i
          * impact_env_at p.dur p.onset p.decay_tau p.decay_beta i
        + modal_at p modes i := by
  simp only [modal_at, List.filter_cons, decide_eq_true_eq]
  rw [if_pos (by simpa using h)]
  simp

/-- C4 (amended): restricted to parameters the noise band accepts
(`0 < brightness` and `body_freq/2 < SR/2`, satisfied by the whole
optimizer box) and a nonnegative duration, `wood_hit` raises no error and
returns exactly `int(SR*dur)` samples however many modes are dropped; a
modal partial with `body_freq*ratio > SR/2` contributes nothing to the
accumulated modal sum (it is skipped, not zero-padded), while a partial at
or below Nyquist adds its `amp * sine * envelope` term.  Outside that
parameter region the noise band — not the mode dropping — can raise
(`wood_hit_high_fundamental_error`). -/
theorem wood_hit_drops_super_nyquist_modes (p : WoodParams)
    (hdur : 0 ≤ p.dur) (hbr : 0 < p.brightness)
    (hbf : p.body_freq / 2 < SR / 2) :
    (∃ w, wood_hit p = Except.ok w ∧ w.length = nSamples p.dur)
    ∧ (∀ (modes : List (ℚ × ℚ)) (r a : ℚ), SR / 2 < p.body_freq * r →
        ∀ i, modal_at p ((r, a) :: modes) i = modal_at p modes i)
    ∧ (∀ (modes : List (ℚ × ℚ)) (r a : ℚ), p.body_freq * r ≤ SR / 2 →
        ∀ i, modal_at p ((r, a) :: modes) i
          = ((a : ℚ) : ℝ) * sineAt (p.body_freq * r) p.dur i
              * impact_env_at p.dur p.onset p.decay_tau p.decay_beta i
            + modal_at p modes i) := by
  refine ⟨?_, fun modes r a h i => modal_at_drop p modes r a h i,
    fun modes r a h i => modal_at_keep p modes r a h i⟩
  have hval : 0 < max 100 (p.body_freq / 2)
      ∧ max 100 (p.body_freq / 2) < SR / 2
      ∧ 0 < min p.brightness (SR / 2 - 1)
      ∧ min p.brightness (SR / 2 - 1) < SR / 2 := by
    refine ⟨lt_max_of_lt_left (by norm_num), max_lt (by norm_num [SR]) hbf,
      lt_min hbr (by norm_num [SR]),
      lt_of_le_of_lt (min_le_right _ _) (by norm_num [SR])⟩
  exact ⟨_, wood_hit_eq_ok p hval, by simp⟩

/-- Witness for `wood_hit_drops_super_nyquist_modes` at
`body_freq = 30000` (every one of the four modes is above Nyquist and is
dropped; the band stays valid and the buffer keeps its length). -/
theorem wood_hit_drops_super_nyquist_modes_witness :
    (∃ w, wood_hit { body_freq := 30000, dur := 1/10 } = Except.ok w
      ∧ w.length = nSamples (1/10))
    ∧ (∀ (modes : List (ℚ × ℚ)) (r a : ℚ),
        SR / 2 < ({ body_freq := 30000, dur := 1/10 }
          : WoodParams).body_freq * r →
        ∀ i, modal_at { body_freq := 30000, dur := 1/10 } ((r, a) :: modes) i
          = modal_at { body_freq := 30000, dur := 1/10 } modes i)
    ∧ (∀ (modes : List (ℚ × ℚ)) (r a : ℚ),
        ({ body_freq := 30000, dur := 1/10 }
          : WoodParams).body_freq * r ≤ SR / 2 →
        ∀ i, modal_at { body_freq := 30000, dur := 1/10 } ((r, a) :: modes) i
          = ((a : ℚ) : ℝ)
              * sineAt (({ body_freq := 30000, dur := 1/10 }
                  : WoodParams).body_freq * r) (1/10) i
              * impact_env_at (1/10) (1/20) (1/200) (1/2) i
            + modal_at { body_freq := 30000, dur := 1/10 } modes i) :=
  wood_hit_drops_super_nyquist_modes { body_freq := 30000, dur := 1/10 }
    (by norm_num) (by norm_num) (by norm_num [SR])

/- ── C7: bounded, full-length output for in-bounds parameters ──────── -/

lemma raised_cos_attack_mem (a : ℝ) :
    0 ≤ 1/2 * (1 - Real.cos a) ∧ 1/2 * (1 - Real.cos a) ≤ 1 :=
  ⟨by nlinarith [Real.cos_le_one a], by nlinarith [Real.neg_one_le_cos a]⟩

lemma raised_cos_fade_mem (a : ℝ) :
    0 ≤ 1/2 * (1 + Real.cos a) ∧ 1/2 * (1 + Real.cos a) ≤ 1 :=
  ⟨by nlinarith [Real.neg_one_le_cos a], by nlinarith [Real.cos_le_one a]⟩

lemma impact_env_at_bounds (dur onset tau beta : ℚ) (htau : 0 < tau)
    (i : ℕ) :
    0 ≤ impact_env_at dur onset tau beta i
    ∧ impact_env_at dur onset tau beta i ≤ 1 := by
  have harg : (0 : ℝ) ≤ ((max (tAt dur i - onset) 0 / tau : ℚ) : ℝ) := by
    have h : (0 : ℚ) ≤ max (tAt dur i - onset) 0 / tau :=
      div_nonneg (le_max_right _ _) (le_of_lt htau)
    exact_mod_cast h
  have hbase_pos : (0 : ℝ)
      < Real.exp (-(((max (tAt dur i - onset) 0 / tau : ℚ) : ℝ)
          ^ ((beta : ℚ) : ℝ))) := Real.exp_pos _
  have hbase_le : Real.exp (-(((max (tAt dur i - onset) 0 / tau : ℚ) : ℝ)
      ^ ((beta : ℚ) : ℝ))) ≤ 1 := by
    rw [Real.exp_le_one_iff, neg_nonpos]
    exact Real.rpow_nonneg harg _
  simp only [impact_env_at]
  split_ifs
  · norm_num
  · constructor
    · exact mul_nonneg (raised_cos_attack_mem _).1 (le_of_lt hbase_pos)
    · exact mul_le_one₀ (raised_cos_attack_mem _).2 (le_of_lt hbase_pos)
        hbase_le
  · exact ⟨le_of_lt hbase_pos, hbase_le⟩

lemma sineAt_abs_le_one (freq dur : ℚ) (i : ℕ) : |sineAt freq dur i| ≤ 1 :=
  Real.abs_sin_le_one _

lemma le_foldl_maxAbs_init (l : List ℝ) :
    ∀ b : ℝ, b ≤ l.foldl (fun a x => max a |x|) b := by
  induction l with
  | nil => intro b; simp
  | cons x l ih =>
    intro b
    rw [List.foldl_cons]
    exact le_trans (le_max_left b |x|) (ih (max b |x|))

lemma mem_le_foldl_maxAbs (l : List ℝ) :
    ∀ (b x : ℝ), x ∈ l → |x| ≤ l.foldl (fun a y => max a |y|) b := by
  induction l with
  | nil => intro b x hx; cases hx
  | cons y l ih =>
    intro b x hx
    rw [List.foldl_cons]
    rcases List.mem_cons.mp hx with h | h
    · subst h
      exact le_trans (le_max_right b |x|) (le_foldl_maxAbs_init l _)
    · exact ih _ x h

lemma le_maxAbs {l : List ℝ} {x : ℝ} (h : x ∈ l) : |x| ≤ maxAbs l :=
  mem_le_foldl_maxAbs l 0 x h

lemma maxAbs_nonneg (l : List ℝ) : 0 ≤ maxAbs l := le_foldl_maxAbs_init l 0

lemma getD_abs_le {l : List ℝ} {B : ℝ} (hB : 0 ≤ B)
    (h : ∀ x ∈ l, |x| ≤ B) (i : ℕ) : |l.getD i 0| ≤ B := by
  by_cases hi : i < l.length
  · rw [List.getD_eq_getElem l 0 hi]
    exact h _ (List.getElem_mem hi)
  · rw [List.getD_eq_default]
    · simpa
    · omega

lemma pinkList_length (dur : ℚ) : (pinkList dur).length = nSamples dur := by
  simp only [pinkList]
  split_ifs <;> simp

lemma pinkList_bound (dur : ℚ) : ∀ x ∈ pinkList dur, |x| ≤ 1 := by
  intro x hx
  simp only [pinkList] at hx
  by_cases hp : 0 < maxAbs ((List.range (nSamples dur)).map
      fun m => pinkRawAt (nSamples dur) m)
  · rw [if_pos hp] at hx
    obtain ⟨y, hy, rfl⟩ := List.mem_map.mp hx
    rw [abs_div, abs_of_pos hp, div_le_one hp]
    exact le_maxAbs hy
  · rw [if_neg hp] at hx
    have h1 : |x| ≤ maxAbs ((List.range (nSamples dur)).map
        fun m => pinkRawAt (nSamples dur) m) := le_maxAbs hx
    have h2 := not_lt.mp hp
    linarith

lemma sosfiltfiltK_length (xs : List ℝ) :
    (sosfiltfiltK xs).length = xs.length := by
  simp [sosfiltfiltK]

lemma sosfiltfiltK_bound {xs : List ℝ} {B : ℝ} (hB : 0 ≤ B)
    (h : ∀ x ∈ xs, |x| ≤ B) : ∀ y ∈ sosfiltfiltK xs, |y| ≤ B := by
  intro y hy
  simp only [sosfiltfiltK, List.mem_map] at hy
  obtain ⟨i, _, rfl⟩ := hy
  have h1 := getD_abs_le hB h (i - 1)
  have h2 := getD_abs_le hB h i
  have h3 := getD_abs_le hB h (i + 1)
  have habs : |xs.getD (i - 1) 0 + xs.getD i 0 + xs.getD (i + 1) 0|
      ≤ 3 * B := by
    calc |xs.getD (i - 1) 0 + xs.getD i 0 + xs.getD (i + 1) 0|
        ≤ |xs.getD (i - 1) 0 + xs.getD i 0| + |xs.getD (i + 1) 0| :=
          abs_add _ _
      _ ≤ |xs.getD (i - 1) 0| + |xs.getD i 0| + |xs.getD (i + 1) 0| := by
          have := abs_add (xs.getD (i - 1) 0) (xs.getD i 0)
          linarith
      _ ≤ 3 * B := by linarith
  rw [abs_div]
  rw [div_le_iff₀ (by norm_num : (0 : ℝ) < |(3 : ℝ)|)]
  calc |xs.getD (i - 1) 0 + xs.getD i 0 + xs.getD (i + 1) 0| ≤ 3 * B := habs
    _ = B * |(3 : ℝ)| := by
        rw [abs_of_pos (by norm_num : (0 : ℝ) < 3)]
        ring

lemma abs_filter_map_sum_le (l : List (ℚ × ℚ)) (f g : ℚ × ℚ → ℝ)
    (q : ℚ × ℚ → Bool) (h : ∀ x ∈ l, |f x| ≤ g x) :
    |((l.filter q).map f).sum| ≤ (l.map g).sum := by
  induction l with
  | nil => simp
  | cons x l ih =>
    have hx := h x (List.mem_cons_self x l)
    have hg : 0 ≤ g x := le_trans (abs_nonneg _) hx
    have ihl := ih fun y hy => h y (List.mem_cons_of_mem x hy)
    rw [List.filter_cons]
    by_cases hq : q x = true
    · rw [if_pos hq]
      simp only [List.map_cons, List.sum_cons]
      calc |f x + ((l.filter q).map f).sum|
          ≤ |f x| + |((l.filter q).map f).sum| := abs_add _ _
        _ ≤ g x + (l.map g).sum := add_le_add hx ihl
    · rw [if_neg hq]
      simp only [List.map_cons, List.sum_cons]
      linarith

lemma modal_at_bound (p : WoodParams) (i : ℕ) (hms0 : 0 ≤ p.mode_spread)
    (hms1 : p.mode_spread ≤ 1) (htau : 0 < p.decay_tau) :
    |modal_at p (mode_table p.mode_spread) i| ≤ 23/10 := by
  have henv := impact_env_at_bounds p.dur p.onset p.decay_tau p.decay_beta
    htau i
  have h : ∀ ra ∈ mode_table p.mode_spread,
      |((ra.2 : ℚ) : ℝ) * sineAt (p.body_freq * ra.1) p.dur i
        * impact_env_at p.dur p.onset p.decay_tau p.decay_beta i|
        ≤ ((ra.2 : ℚ) : ℝ) := by
    intro ra hra
    have hamp : (0 : ℚ) ≤ ra.2 := by
      simp only [mode_table, List.mem_cons, List.not_mem_nil, or_false]
        at hra
      rcases hra with h | h | h | h <;> subst h <;> simp <;> linarith
    have hampR : (0 : ℝ) ≤ ((ra.2 : ℚ) : ℝ) := by exact_mod_cast hamp
    have hs := sineAt_abs_le_one (p.body_freq * ra.1) p.dur i
    have he : |impact_env_at p.dur p.onset p.decay_tau p.decay_beta i|
        ≤ 1 := by
      rw [abs_of_nonneg henv.1]
      exact henv.2
    rw [abs_mul, abs_mul, abs_of_nonneg hampR]
    calc ((ra.2 : ℚ) : ℝ) * |sineAt (p.body_freq * ra.1) p.dur i|
          * |impact_env_at p.dur p.onset p.decay_tau p.decay_beta i|
        ≤ ((ra.2 : ℚ) : ℝ) * 1 * 1 :=
          mul_le_mul (mul_le_mul_of_nonneg_left hs hampR) he (abs_nonneg _)
            (mul_nonneg hampR (by norm_num))
      _ = ((ra.2 : ℚ) : ℝ) := by ring
  calc |modal_at p (mode_table p.mode_spread) i|
      ≤ ((mode_table p.mode_spread).map (fun ra => ((ra.2 : ℚ) : ℝ))).sum := by
        unfold modal_at
        exact abs_filter_map_sum_le _ _ _ _ h
    _ ≤ 23/10 := by
        simp only [mode_table, List.map_cons, List.map_nil, List.sum_cons,
          List.sum_nil]
        push_cast
        have hm : ((p.mode_spread : ℚ) : ℝ) ≤ 1 := by exact_mod_cast hms1
        linarith

/-- C7: for every optimizer vector inside `_SYNTH_BOUNDS` and each target
duration used by the program (0.08, 0.20, 0.25 s), `wood_hit` succeeds and
returns exactly `int(SR*dur)` samples, every one of which is bounded by
13/4 in absolute value — in particular finite (no NaN/Inf arises: the
Weibull base is nonnegative because `decay_tau > 0`, the noise is
peak-normalized, and the filter preconditions hold). -/
theorem wood_hit_in_bounds_bounded (x : List ℚ) (dur : ℚ)
    (hx : synthInBounds x)
    (hdur : dur = 2/25 ∨ dur = 1/5 ∨ dur = 1/4) :
    ∃ w, wood_hit (make_wood x dur) = Except.ok w
      ∧ w.length = nSamples dur
      ∧ ∀ y ∈ w, |y| ≤ 13/4 := by
  obtain ⟨⟨hbf1, hbf2⟩, ⟨hnl1, hnl2⟩, ⟨hbr1, hbr2⟩, ⟨hms1, hms2⟩, _,
    ⟨htau1, htau2⟩, _⟩ := synthInBounds_fields hx
  have hval := wood_band_valid dur hx
  rw [wood_hit_eq_ok _ hval]
  refine ⟨_, rfl, by simp [make_wood], ?_⟩
  intro y hy
  simp only [List.mem_map, List.mem_range] at hy
  obtain ⟨i, _, rfl⟩ := hy
  have hms0q : (0 : ℚ) ≤ (make_wood x dur).mode_spread := by
    simp only [make_wood]
    linarith
  have hms1q : (make_wood x dur).mode_spread ≤ 1 := by
    simp only [make_wood]
    linarith
  have htauq : (0 : ℚ) < (make_wood x dur).decay_tau := by
    simp only [make_wood]
    linarith
  have hmodal := modal_at_bound (make_wood x dur) i hms0q hms1q htauq
  have hpink : ∀ j, |(pinkList (make_wood x dur).dur).getD j 0| ≤ 1 :=
    getD_abs_le (by norm_num) (pinkList_bound _)
  have hraw : ∀ z ∈ (List.range (nSamples (make_wood x dur).dur)).map
      (fun j => (pinkList (make_wood x dur).dur).getD j 0
        * impact_env_at (make_wood x dur).dur (make_wood x dur).onset
            (make_wood x dur).decay_tau (make_wood x dur).decay_beta j),
      |z| ≤ 1 := by
    intro z hz
    simp only [List.mem_map, List.mem_range] at hz
    obtain ⟨j, _, rfl⟩ := hz
    have henv := impact_env_at_bounds (make_wood x dur).dur
      (make_wood x dur).onset (make_wood x dur).decay_tau
      (make_wood x dur).decay_beta htauq j
    rw [abs_mul]
    exact mul_le_one₀ (hpink j) (abs_nonneg _)
      (by rw [abs_of_nonneg henv.1]; exact henv.2)
  have hfilt := sosfiltfiltK_bound (by norm_num : (0:ℝ) ≤ 1) hraw
  have hfiltD := getD_abs_le (by norm_num : (0:ℝ) ≤ 1) hfilt i
  have hnlR : |(((make_wood x dur).noise_level : ℚ) : ℝ)| ≤ 19/20 := by
    rw [abs_of_nonneg]
    · simp only [make_wood]
      calc ((x.getD 1 0 : ℚ) : ℝ) ≤ ((19/20 : ℚ) : ℝ) := Rat.cast_le.mpr hnl2
        _ = 19/20 := by norm_num
    · simp only [make_wood]
      have h0 : (0 : ℚ) ≤ x.getD 1 0 := by linarith
      exact_mod_cast h0
  calc |modal_at (make_wood x dur) (mode_table (make_wood x dur).mode_spread) i
        + (((make_wood x dur).noise_level : ℚ) : ℝ)
          * (sosfiltfiltK ((List.range (nSamples (make_wood x dur).dur)).map
              (fun j => (pinkList (make_wood x dur).dur).getD j 0
                * impact_env_at (make_wood x dur).dur (make_wood x dur).onset
                    (make_wood x dur).decay_tau
                    (make_wood x dur).decay_beta j))).getD i 0|
      ≤ |modal_at (make_wood x dur)
          (mode_table (make_wood x dur).mode_spread) i|
        + |(((make_wood x dur).noise_level : ℚ) : ℝ)|
          * |(sosfiltfiltK ((List.range (nSamples (make_wood x dur).dur)).map
              (fun j => (pinkList (make_wood x dur).dur).getD j 0
                * impact_env_at (make_wood x dur).dur (make_wood x dur).onset
                    (make_wood x dur).decay_tau
                    (make_wood x dur).decay_beta j))).getD i 0| := by
        have := abs_add (modal_at (make_wood x dur)
          (mode_table (make_wood x dur).mode_spread) i)
          ((((make_wood x dur).noise_level : ℚ) : ℝ)
            * (sosfiltfiltK ((List.range (nSamples (make_wood x dur).dur)).map
                (fun j => (pinkList (make_wood x dur).dur).getD j 0
                  * impact_env_at (make_wood x dur).dur
                      (make_wood x dur).onset (make_wood x dur).decay_tau
                      (make_wood x dur).decay_beta j))).getD i 0)
        rw [abs_mul] at this
        exact this
    _ ≤ 23/10 + (19/20) * 1 := by
        have habs := abs_nonneg ((sosfiltfiltK
          ((List.range (nSamples (make_wood x dur).dur)).map
            (fun j => (pinkList (make_wood x dur).dur).getD j 0
              * impact_env_at (make_wood x dur).dur (make_wood x dur).onset
                  (make_wood x dur).decay_tau
                  (make_wood x dur).decay_beta j))).getD i 0)
        have hmul := mul_le_mul hnlR hfiltD habs (by norm_num : (0:ℝ) ≤ 19/20)
        linarith
    _ ≤ 13/4 := by norm_num

/-- Witness for `wood_hit_in_bounds_bounded` at the synth part of the move
optimizer's initial guess `_MOVE_X0` and duration 0.25 s. -/
theorem wood_hit_in_bounds_bounded_witness :
    ∃ w, wood_hit (make_wood [690, 1/5, 1500, 1/5, 11/200, 1/500, 2/5]
        (1/4)) = Except.ok w
      ∧ w.length = nSamples (1/4)
      ∧ ∀ y ∈ w, |y| ≤ 13/4 :=
  wood_hit_in_bounds_bounded [690, 1/5, 1500, 1/5, 11/200, 1/500, 2/5] (1/4)
    (by
      intro i hi
      interval_cases i <;> norm_num [SYNTH_BOUNDS])
    (Or.inr (Or.inr rfl))

/- ── C10: `_process` output stays in [-1, 1] ───────────────────────── -/

lemma fadeout_abs_le {s : List ℝ} {B : ℝ} (hB : 0 ≤ B)
    (h : ∀ x ∈ s, |x| ≤ B) : ∀ y ∈ fadeout s, |y| ≤ B := by
  intro y hy
  simp only [fadeout, List.mem_map, List.mem_range] at hy
  obtain ⟨i, _, rfl⟩ := hy
  by_cases hcond : s.length - min (pyIntNat (SR * (1/125))) s.length ≤ i
  · rw [if_pos hcond, abs_mul]
    have hf := raised_cos_fade_mem (Real.pi * ((i : ℝ)
      - ((s.length - min (pyIntNat (SR * (1/125))) s.length : ℕ) : ℝ))
      / ((min (pyIntNat (SR * (1/125))) s.length : ℕ) : ℝ))
    have h1 : |1/2 * (1 + Real.cos (Real.pi * ((i : ℝ)
        - ((s.length - min (pyIntNat (SR * (1/125))) s.length : ℕ) : ℝ))
        / ((min (pyIntNat (SR * (1/125))) s.length : ℕ) : ℝ)))| ≤ 1 := by
      rw [abs_of_nonneg hf.1]
      exact hf.2
    calc |1/2 * (1 + Real.cos (Real.pi * ((i : ℝ)
          - ((s.length - min (pyIntNat (SR * (1/125))) s.length : ℕ) : ℝ))
          / ((min (pyIntNat (SR * (1/125))) s.length : ℕ) : ℝ)))|
          * |s.getD i 0|
        ≤ 1 * B :=
          mul_le_mul h1 (getD_abs_le hB h i) (abs_nonneg _) (by norm_num)
      _ = B := one_mul B
  · rw [if_neg hcond]
    exact getD_abs_le hB h i

lemma clamp_stage_bound (s5 : List ℝ) :
    ∀ y ∈ (if 1 < maxAbs s5 then s5.map (fun x => x / maxAbs s5) else s5),
      |y| ≤ 1 := by
  intro y hy
  by_cases hp : 1 < maxAbs s5
  · rw [if_pos hp] at hy
    obtain ⟨z, hz, rfl⟩ := List.mem_map.mp hy
    rw [abs_div, abs_of_pos (lt_trans one_pos hp),
      div_le_one (lt_trans one_pos hp)]
    exact le_maxAbs hz
  · rw [if_neg hp] at hy
    exact le_trans (le_maxAbs hy) (not_lt.mp hp)

lemma processTail_bound (fx : List ℝ → List ℝ) (s2 : List ℝ) :
    ∀ y ∈ processTail fx s2, |y| ≤ 1 := by
  intro y hy
  simp only [processTail] at hy
  exact fadeout_abs_le (by norm_num) (clamp_stage_bound _) y hy

/-- C10: whatever waveform comes in and whatever the effects chain does
(any chain, or the default MASTER path with the global low-pass and reverb
pad), every sample of a returned `_process` output lies in `[-1, 1]`: after
the chain the signal is divided by its peak whenever that peak exceeds 1,
and the final fade-out only attenuates.  Consequently the int16 conversion
`(samples * 32767).astype(np.int16)` in `write` stays within
`[-32767, 32767]` and never overflows. -/
theorem process_output_in_unit_range (master : List ℝ → List ℝ)
    (samples : List ℝ) (chain : Option (List ℝ → List ℝ)) (w : List ℝ)
    (hw : process master samples chain = Except.ok w) :
    ∀ y ∈ w, |y| ≤ 1 ∧ |32767 * y| ≤ 32767 := by
  have hbound : ∀ y ∈ w, |y| ≤ 1 := by
    cases chain with
    | none =>
      simp only [process] at hw
      cases hl : lpf (fadeout samples) LPF_CUTOFF with
      | error e =>
        rw [hl] at hw
        exact absurd hw (by simp [Except.map])
      | ok filtered =>
        rw [hl] at hw
        simp only [Except.map] at hw
        injection hw with h
        subst h
        exact processTail_bound _ _
    | some fx =>
      simp only [process] at hw
      injection hw with h
      subst h
      exact processTail_bound _ _
  intro y hy
  refine ⟨hbound y hy, ?_⟩
  have h1 := hbound y hy
  rw [abs_mul, abs_of_pos (by norm_num : (0 : ℝ) < 32767)]
  nlinarith [h1]

/-- Witness for `process_output_in_unit_range`: a one-sample waveform
through a chain that amplifies it to 2 is clamped back to exactly 1, the
returned sample. -/
theorem process_output_in_unit_range_witness :
    |(1 : ℝ)| ≤ 1 ∧ |32767 * (1 : ℝ)| ≤ 32767 :=
  process_output_in_unit_range (fun l => l) [0] (some (fun _ => [2])) [1]
    (by
      simp only [process]
      norm_num [processTail, lastLoud, lastLoudAux, maxAbs, pyIntNat, pyInt,
        SR, POST_TRIM_PAD, fadeout, List.range_succ, List.range_zero])
    1 (List.mem_singleton.mpr rfl)

/- ── C5: defined features for an all-zero waveform ─────────────────── -/

lemma getD_replicate_zero (n i : ℕ) :
    (List.replicate n (0 : ℝ)).getD i 0 = 0 := by
  by_cases h : i < n
  · rw [List.getD_eq_getElem _ _ (by simpa using h)]
    simp
  · rw [List.getD_eq_default]
    simp only [List.length_replicate]
    omega

lemma welchPSDAt_zero (n k : ℕ) :
    welchPSDAt (List.replicate n (0 : ℝ)) k = 0 := by
  simp only [welchPSDAt, getD_replicate_zero]
  simp

/-- C5: on an all-zero waveform of any positive length every one of the 8
moments of `_quick_analyze` is a defined real number — the epsilon-guarded
denominators make each quotient evaluate to its degenerate value:
`f_centroid = 2^0 = 1`, zero spreads and skewnesses, and Fisher kurtoses
of `0 - 3 = -3`; no division by zero (hence no NaN) occurs. -/
theorem quick_analyze_zero_waveform (n : ℕ) (hn : 0 < n) :
    quick_analyze (List.replicate n (0 : ℝ))
      = { f_centroid := 1, f_spread := 0, f_skewness := 0, f_kurtosis := -3,
          t_centroid := 0, t_spread := 0, t_skewness := 0,
          t_kurtosis := -3 } := by
  have hpsd : ∀ j, welchPSDAt (List.replicate n (0 : ℝ)) j = 0 :=
    welchPSDAt_zero n
  simp only [quick_analyze, hpsd, getD_replicate_zero, List.length_replicate]
  norm_num [Real.rpow_zero]

/-- Witness for `quick_analyze_zero_waveform` at length 4. -/
theorem quick_analyze_zero_waveform_witness :
    quick_analyze (List.replicate 4 (0 : ℝ))
      = { f_centroid := 1, f_spread := 0, f_skewness := 0, f_kurtosis := -3,
          t_centroid := 0, t_spread := 0, t_skewness := 0,
          t_kurtosis := -3 } :=
  quick_analyze_zero_waveform 4 (by norm_num)
